import Mathlib

/-
  Shallow embedding of the Ricecast MPEG framing and segmenting core
  (ricecast/mpeg.py): header decoding, incremental frame assembly, and
  duration-bounded segment accumulation, together with theorems settling
  the specification claims about them.

  Byte strings of the Python 2 source are modelled as lists of Fin 256.
  Python 2 integer division on nonnegative ints is Nat division; the
  float duration arithmetic of the source is modelled exactly with
  unreduced fractions of naturals (PyRat below), whose value map into
  the rationals is proved to commute with addition and comparison.
-/

namespace Ricecast

abbrev Byte := Fin 256

abbrev Bytes := List Byte

/-- Big-endian 32-bit unpack of exactly four bytes, as done by
struct.unpack in MPEGHeader.parse; any other length raises struct.error,
modelled as the error case. -/
def struct_unpack (xs : Bytes) : Except Unit Nat :=
  match xs with
  | [b0, b1, b2, b3] => .ok (b0.val * 2 ^ 24 + b1.val * 2 ^ 16 + b2.val * 2 ^ 8 + b3.val)
  | _ => .error ()

/-- Bitrate table for MPEG-1 layer I, in kbps (0 means freeformat). -/
def BITRATE_V1L1 : List Nat := [0, 32, 64, 96, 128, 160, 192, 224, 256, 288, 320, 352, 384, 416, 448]

/-- Bitrate table for MPEG-1 layer II. -/
def BITRATE_V1L2 : List Nat := [0, 32, 48, 56, 64, 80, 96, 112, 128, 160, 192, 224, 256, 320, 384]

/-- Bitrate table for MPEG-1 layer III. -/
def BITRATE_V1L3 : List Nat := [0, 32, 40, 48, 56, 64, 80, 96, 112, 128, 160, 192, 224, 256, 320]

/-- Bitrate table for MPEG-2 and MPEG-2.5 layer I. -/
def BITRATE_V2L1 : List Nat := [0, 32, 48, 56, 64, 80, 96, 112, 128, 144, 160, 176, 192, 224, 256]

/-- Bitrate table for MPEG-2 and MPEG-2.5 layers II and III. -/
def BITRATE_V2L2 : List Nat := [0, 8, 16, 24, 32, 40, 48, 56, 64, 80, 96, 112, 128, 144, 160]

/-- Same table as for layer II in the source. -/
def BITRATE_V2L3 : List Nat := BITRATE_V2L2

/-- Nested bitrate table indexed by version index then layer index; the
None entries of the source (reserved version 1, reserved layer 0) are
modelled as none and are unreachable after the reserved-codepoint
checks. -/
def MPEG_BITRATE : List (Option (List (Option (List Nat)))) :=
  [some [none, some BITRATE_V2L3, some BITRATE_V2L2, some BITRATE_V2L1],
   none,
   some [none, some BITRATE_V2L3, some BITRATE_V2L2, some BITRATE_V2L1],
   some [none, some BITRATE_V1L3, some BITRATE_V1L2, some BITRATE_V1L1]]

/-- Sampling rates in Hz indexed by version index; the None entry is the
reserved version, unreachable after the version check. -/
def MPEG_SAMPLINGRATE : List (Option (List Nat)) :=
  [some [11025, 12000, 8000],
   none,
   some [22050, 24000, 16000],
   some [44100, 48000, 32000]]

/-- Table lookup MPEG_BITRATE[version_index][layer_index][bitrate_index];
the defaults are unreachable because parse rejects version index 1,
layer index 0 and bitrate index 15 before reading the table. -/
def bitrateLookup (vi li bi : Nat) : Nat :=
  match MPEG_BITRATE.getD vi none with
  | none => 0
  | some row =>
    match row.getD li none with
    | none => 0
    | some tbl => tbl.getD bi 0

/-- Table lookup MPEG_SAMPLINGRATE[version_index][sampling_index]; the
defaults are unreachable because parse rejects version index 1 and
sampling index 3 before reading the table. -/
def samplingLookup (vi si : Nat) : Nat :=
  match MPEG_SAMPLINGRATE.getD vi none with
  | none => 0
  | some tbl => tbl.getD si 0

/-- Python 2 equality between a str and an int always evaluates to
False. The source guards the Layer I frame-length formula with the test
layer == 0b11, where layer is the layer NAME string (I, II or III), so
the guard never holds and every layer takes the layer II/III branch. -/
def pyStrEqInt (_s : String) (_n : Nat) : Bool := false

/-- Unreduced nonnegative fraction num/den. The source builds durations
as float divisions 1152/(rate/1000.0) or 384/(rate/1000.0) and then only
adds and compares them; these operations are modelled exactly on
unreduced fractions with plain Nat arithmetic (val below maps a fraction
to its rational value, and addition and order agree with the rational
ones whenever denominators are nonzero). -/
structure PyRat where
  num : Nat
  den : Nat
deriving DecidableEq, Repr

/-- Embed a natural number. -/
def PyRat.ofNat (n : Nat) : PyRat := ⟨n, 1⟩

/-- Exact division of fractions. -/
def PyRat.div (a b : PyRat) : PyRat := ⟨a.num * b.den, a.den * b.num⟩

/-- Exact addition of fractions. -/
def PyRat.add (a b : PyRat) : PyRat := ⟨a.num * b.den + b.num * a.den, a.den * b.den⟩

/-- Strict order by cross multiplication (the order of the values when
denominators are positive). -/
def PyRat.lt (a b : PyRat) : Prop := a.num * b.den < b.num * a.den

instance : Add PyRat := ⟨PyRat.add⟩

instance : LT PyRat := ⟨PyRat.lt⟩

instance (a b : PyRat) : Decidable (a < b) :=
  inferInstanceAs (Decidable (a.num * b.den < b.num * a.den))

/-- Rational value of a fraction. -/
def PyRat.val (a : PyRat) : ℚ := (a.num : ℚ) / (a.den : ℚ)

/-- Parsed MPEG frame header, mirroring the namedtuple of the source.
The field holding the private bit is renamed priv because private is a
reserved word in Lean. duration is in milliseconds (the float of the
source modelled as an exact rational); length is the frame length in
bytes, including the 4 header bytes. -/
structure MPEGHeader where
  version : String
  layer : String
  nocrc : Nat
  bitrate : Nat
  samplingrate : Nat
  padding : Nat
  priv : Nat
  mode : String
  ext : Nat
  copyright : Nat
  original : Nat
  emphasis : String
  duration : PyRat
  length : Nat
deriving DecidableEq, Repr

/-- Body of MPEGHeader.parse after the struct unpack: field extraction
and validation from the 32-bit big-endian integer I. Bit masking with
0b11, 0b1 and 0b1111 is written as mod 4, mod 2 and mod 16. -/
def parseI (I : Nat) : Option MPEGHeader :=
  if I >>> 21 ≠ 0b11111111111 then none else
  let version_index := (I >>> 19) % 4
  if version_index = 0b01 then none else
  let version := ["MPEG-2.5", "", "MPEG-2", "MPEG-1"].getD version_index ""
  let layer_index := (I >>> 17) % 4
  if layer_index = 0b00 then none else
  let layer := ["", "III", "II", "I"].getD layer_index ""
  let nocrc := (I >>> 16) % 2
  let bitrate_index := (I >>> 12) % 16
  if bitrate_index = 0b1111 then none else
  let bitrate := bitrateLookup version_index layer_index bitrate_index
  let samplingrate_index := (I >>> 10) % 4
  if samplingrate_index = 0b11 then none else
  let samplingrate := samplingLookup version_index samplingrate_index
  let padding := (I >>> 9) % 2
  let frame_length :=
    if pyStrEqInt layer 0b11 then (12 * bitrate * 1000 / samplingrate + padding) * 8
    else 144 * bitrate * 1000 / samplingrate + padding
  let duration : PyRat :=
    if pyStrEqInt layer 0b11 then
      PyRat.div (PyRat.ofNat 384) (PyRat.div (PyRat.ofNat samplingrate) (PyRat.ofNat 1000))
    else
      PyRat.div (PyRat.ofNat 1152) (PyRat.div (PyRat.ofNat samplingrate) (PyRat.ofNat 1000))
  if frame_length = 0 then none else
  let priv := (I >>> 8) % 2
  let mode_index := (I >>> 6) % 4
  let mode := ["Stereo", "Joint", "Dual", "Single"].getD mode_index ""
  let ext := (I >>> 4) % 4
  let copyright := (I >>> 3) % 2
  let original := (I >>> 2) % 2
  let emphasis_index := I % 4
  if emphasis_index = 0b10 then none else
  let emphasis := ["", "50/15 ms", "", "CCIT J.17"].getD emphasis_index ""
  some ⟨version, layer, nocrc, bitrate, samplingrate, padding, priv,
        mode, ext, copyright, original, emphasis, duration, frame_length⟩

/-- MPEGHeader.parse: unpack 4 bytes big-endian and decode; the
struct.error raised by unpack on any other input length is caught by the
try/except of the source and turned into the ordinary invalid result. -/
def MPEGHeader.parse (xs : Bytes) : Option MPEGHeader :=
  match struct_unpack xs with
  | .error _ => none
  | .ok I => parseI I

/-- Observable outcome of a call to MPEGHeader.parse: either a raised
exception (error) or a normal return (ok). The only raise inside the
body, struct.error from unpack, is caught and converted to the invalid
result None, so the call always returns normally. -/
def parse_call (xs : Bytes) : Except Unit (Option MPEGHeader) :=
  match struct_unpack xs with
  | .error _ => .ok none
  | .ok I => .ok (parseI I)

/-- MPEG frame: the parsed header plus the raw bytes of the frame
(header bytes included). -/
structure MPEGFrame where
  header : MPEGHeader
  data : Bytes
deriving DecidableEq, Repr

/-- Attribute delegation of the source: frame.length reads the header. -/
def MPEGFrame.length (f : MPEGFrame) : Nat := f.header.length

/-- Attribute delegation of the source: frame.duration reads the header. -/
def MPEGFrame.duration (f : MPEGFrame) : PyRat := f.header.duration

/-- Incremental framer state: leftover buffer bytes (shorter than a
header), frames recognized but not yet returned, and the pending
incomplete frame if a header was seen whose body has not fully
arrived. -/
structure Framer where
  buf : Bytes
  frames : List MPEGFrame
  last_frame : Option MPEGFrame
deriving DecidableEq, Repr

/-- Fresh framer, as built by the constructor of the source. -/
def Framer.init : Framer := ⟨[], [], none⟩

/-- Framer.feed_last_frame: route incoming bytes into the pending
incomplete frame first. Returns the updated state and the bytes of the
chunk left over after the pending frame took what it needed. -/
def Framer.feed_last_frame (s : Framer) (chunk : Bytes) : Framer × Bytes :=
  match s.last_frame with
  | none => (s, chunk)
  | some lf =>
    if 0 < chunk.length then
      let r := lf.header.length - lf.data.length
      if r ≤ chunk.length then
        ({ s with frames := s.frames ++ [⟨lf.header, lf.data ++ chunk.take r⟩],
                  last_frame := none },
         chunk.drop r)
      else
        ({ s with last_frame := some ⟨lf.header, lf.data ++ chunk⟩ }, [])
    else (s, chunk)

/-- Result of Framer.parse_frame: the implicit None return when the scan
exhausts the 255 candidates, a complete frame with the garbage before it
and the rest of the buffer, or a pending incomplete frame (stored into
last_frame by the caller) with the garbage before it. -/
inductive ParseRes where
  | noHeader : ParseRes
  | complete (garbage : Bytes) (frame : MPEGFrame) (rest : Bytes) : ParseRes
  | pending (garbage : Bytes) (lf : MPEGFrame) : ParseRes
deriving DecidableEq, Repr

/-- Indices of all occurrences of byte 255 in a byte list, offset by k;
successive str.find calls for the sync byte visit exactly these
positions in increasing order. -/
def ffAux : Bytes → Nat → List Nat
  | [], _ => []
  | b :: bs, k => if b = (255 : Byte) then k :: ffAux bs (k + 1) else ffAux bs (k + 1)

/-- All positions of the sync byte 255 in the chunk, in order. -/
def ffIndices (c : Bytes) : List Nat := ffAux c 0

/-- The while loop of Framer.parse_frame over the successive positions
of byte 255: at each candidate position parse the 4 bytes there; on
failure move to the next candidate, on success cut a complete frame or
record a pending incomplete one. -/
def scanPos (chunk : Bytes) : List Nat → ParseRes
  | [] => ParseRes.noHeader
  | i :: is =>
    match MPEGHeader.parse ((chunk.drop i).take 4) with
    | none => scanPos chunk is
    | some hdr =>
      if hdr.length ≤ (chunk.drop i).length then
        ParseRes.complete (chunk.take i) ⟨hdr, (chunk.drop i).take hdr.length⟩
          (chunk.drop (i + hdr.length))
      else
        ParseRes.pending (chunk.take i) ⟨hdr, chunk.drop i⟩

/-- Framer.parse_frame: scan the chunk for a valid header at the sync
byte candidates. -/
def Framer.parse_frame (chunk : Bytes) : ParseRes :=
  scanPos chunk (ffIndices chunk)

/-- Framer.feed, with explicit recursion fuel so that the definition is
structurally recursive and computable by the kernel. The source recurses
on the rest of the buffer after each complete frame; the rest is
strictly shorter than the scanned buffer, so any fuel larger than the
buffered plus incoming byte count makes the zero-fuel case
unreachable. -/
def feedAux : Nat → Framer → Bytes → Framer × List MPEGFrame
  | 0, s, _ => (s, [])
  | fuel + 1, s, chunk =>
    let p := Framer.feed_last_frame s chunk
    let s1 := p.1
    let c1 := p.2
    if s1.buf.length + c1.length < 4 then
      ({ s1 with buf := s1.buf ++ c1 }, [])
    else
      let comb := s1.buf ++ c1
      let s2 := { s1 with buf := [] }
      match Framer.parse_frame comb with
      | ParseRes.noHeader => ({ s2 with frames := [] }, s2.frames)
      | ParseRes.pending _ lf => ({ s2 with frames := [], last_frame := some lf }, s2.frames)
      | ParseRes.complete _ f rest =>
        feedAux fuel { s2 with frames := s2.frames ++ [f] } rest

/-- Framer.feed: consume a chunk of bytes and return the frames the
source returns from this call (frames recognized earlier in the call may
stay queued in the state and be returned by a later call). -/
def Framer.feed (s : Framer) (chunk : Bytes) : Framer × List MPEGFrame :=
  feedAux (s.buf.length + chunk.length + 1) s chunk

/-- Feed a list of chunks in order through the framer, concatenating the
frames returned by the individual calls. -/
def feedChunks : Framer → List Bytes → Framer × List MPEGFrame
  | s, [] => (s, [])
  | s, c :: cs =>
    let p := Framer.feed s c
    let q := feedChunks p.1 cs
    (q.1, p.2 ++ q.2)

/-- Frames returned by the feed calls for the given chunking, starting
from a fresh framer. -/
def returnedOf (cs : List Bytes) : List MPEGFrame :=
  (feedChunks Framer.init cs).2

/-- Frames produced for the given chunking: the frames returned by the
calls followed by the frames still queued inside the framer (the source
returns those on a later call). -/
def yieldOf (cs : List Bytes) : List MPEGFrame :=
  let p := feedChunks Framer.init cs
  p.2 ++ p.1.frames

/-- Split a byte list into single-byte chunks. -/
def chunks1 (xs : Bytes) : List Bytes := xs.map (fun b => [b])

/-- Split a byte list into chunks of n bytes (the last one shorter),
with fuel for structural recursion. -/
def chunksOfAux : Nat → Nat → Bytes → List Bytes
  | 0, _, _ => []
  | _, 0, _ => []
  | fuel + 1, n, xs => if xs.isEmpty then [] else xs.take n :: chunksOfAux fuel n (xs.drop n)

/-- Split a byte list into chunks of n bytes, the last one shorter. -/
def chunksOf (n : Nat) (xs : Bytes) : List Bytes := chunksOfAux (xs.length + 1) n xs

/-- packframes of the source: concatenate the raw bytes of a frame
list. -/
def packframes (frames : List MPEGFrame) : Bytes :=
  (frames.map MPEGFrame.data).flatten

/-- Segmenter state: the framer, the duration budget in milliseconds,
the frames accumulated for the segment being built and their summed
duration. -/
structure Segmenter where
  framer : Framer
  duration : PyRat
  buf : List MPEGFrame
  buf_duration : PyRat
deriving DecidableEq, Repr

/-- Fresh segmenter with the given duration budget (the source defaults
to 1000 milliseconds). -/
def Segmenter.init (d : PyRat) : Segmenter := ⟨Framer.init, d, [], PyRat.ofNat 0⟩

/-- The for loop of Segmenter.feed over the frames returned by the
framer; the loop state is the accumulation buffer, its summed duration
and the local segment variable (initialized to the empty list for each
feed call, overwritten each time the budget is crossed). -/
def segLoop (budget : PyRat) (buf : List MPEGFrame) (bufDur : PyRat)
    (segment : List MPEGFrame) :
    List MPEGFrame → List MPEGFrame × PyRat × List MPEGFrame
  | [] => (buf, bufDur, segment)
  | f :: fs =>
    if budget < bufDur + f.duration then
      segLoop budget [] (PyRat.ofNat 0) buf fs
    else
      segLoop budget (buf ++ [f]) (bufDur + f.duration) segment fs

/-- Segmenter.feed: push a chunk of bytes through the framer and run the
accumulation loop over the returned frames; returns the value of the
local segment variable (the empty list when no budget crossing
happened). -/
def Segmenter.feed (s : Segmenter) (chunk : Bytes) : Segmenter × List MPEGFrame :=
  let p := s.framer.feed chunk
  let q := segLoop s.duration s.buf s.buf_duration [] p.2
  ({ s with framer := p.1, buf := q.1, buf_duration := q.2.1 }, q.2.2)

/-- Segmenter.done: return the accumulated frames, with the pending
incomplete frame of the framer appended when there is one, and clear the
accumulation buffer (the pending frame itself is left in the framer). -/
def Segmenter.done (s : Segmenter) : Segmenter × List MPEGFrame :=
  match s.framer.last_frame with
  | some lf => ({ s with buf := [] }, s.buf ++ [lf])
  | none => ({ s with buf := [] }, s.buf)

/-- Header bytes of an MPEG-2 layer III frame at 8 kbps, 24000 Hz, no
padding: frame length 48 bytes, duration exactly 48 milliseconds. -/
def hdrABytes : Bytes := [255, 243, 20, 0]

/-- The header that the source decodes from hdrABytes. -/
def hdrA : MPEGHeader :=
  ⟨"MPEG-2", "III", 1, 8, 24000, 0, 0, "Stereo", 0, 0, 0, "", ⟨1152000, 24000⟩, 48⟩

/-- Filler payload distinguishing test frames by a tag byte; contains no
sync byte. -/
def fillA (tag : Byte) : Bytes := tag :: List.replicate 43 (0 : Byte)

/-- Raw bytes of a complete 48-byte test frame with the given tag. -/
def frameBytes (tag : Byte) : Bytes := hdrABytes ++ fillA tag

/-- Complete test frame with the given tag. -/
def frameA (tag : Byte) : MPEGFrame := ⟨hdrA, frameBytes tag⟩

/-- Header bytes of an MPEG-1 Layer I frame at 32 kbps, 44100 Hz, no
padding. -/
def hdrL1Bytes : Bytes := [255, 255, 16, 0]

/-- The header the source actually produces for hdrL1Bytes: because the
layer name string is compared against the int 3, the layer II/III
formulas are applied, giving length 144*32000/44100 = 104 and duration
1152/44.1 = 1280/49 milliseconds. -/
def hdrL1 : MPEGHeader :=
  ⟨"MPEG-1", "I", 1, 32, 44100, 0, 0, "Stereo", 0, 0, 0, "", ⟨1152000, 44100⟩, 104⟩

/-- The big-endian 32-bit value of four bytes, the quantity the header
decoder works on. -/
def be32 (b0 b1 b2 b3 : Byte) : Nat :=
  b0.val * 2 ^ 24 + b1.val * 2 ^ 16 + b2.val * 2 ^ 8 + b3.val

/-- Reachable segmenter state obtained by feeding one complete test
frame followed by the four header bytes of a next frame: the complete
frame is accumulated and the header bytes sit in the framer as a pending
incomplete frame. -/
def stPend : Segmenter :=
  (Segmenter.feed (Segmenter.init (PyRat.ofNat 1000)) (frameBytes 1 ++ hdrABytes)).1

/-- Result of one Segmenter.feed call, budget 60 ms, on three complete
48 ms test frames followed by the header of a fourth (so that the framer
surfaces the three frames in this call). -/
def segC1 : Segmenter × List MPEGFrame :=
  Segmenter.feed (Segmenter.init (PyRat.ofNat 60))
    (frameBytes 1 ++ frameBytes 2 ++ frameBytes 3 ++ hdrABytes)

/-- Result of one Segmenter.feed call, budget 60 ms, on five complete
48 ms test frames followed by the header of a sixth: the frame list
crosses the budget twice within the single call. -/
def segC2 : Segmenter × List MPEGFrame :=
  Segmenter.feed (Segmenter.init (PyRat.ofNat 60))
    (frameBytes 1 ++ frameBytes 2 ++ frameBytes 3 ++ frameBytes 4 ++
     frameBytes 5 ++ hdrABytes)

/-- A frame is complete: its data has exactly the byte length announced
by its header. -/
def FrameOK (f : MPEGFrame) : Prop := f.data.length = f.header.length

instance (f : MPEGFrame) : Decidable (FrameOK f) :=
  inferInstanceAs (Decidable (f.data.length = f.header.length))

/-- The pending slot, when filled, holds a strictly incomplete frame. -/
def PendOK : Option MPEGFrame → Prop
  | none => True
  | some f => f.data.length < f.header.length

instance : (o : Option MPEGFrame) → Decidable (PendOK o)
  | none => .isTrue trivial
  | some f => inferInstanceAs (Decidable (f.data.length < f.header.length))

/-- Invariant of every reachable framer state: queued frames are
complete, the pending frame (if any) is strictly incomplete, and the
leftover buffer is shorter than a header. -/
def FramerInv (s : Framer) : Prop :=
  (∀ f ∈ s.frames, FrameOK f) ∧ PendOK s.last_frame ∧ s.buf.length < 4

instance (s : Framer) : Decidable (FramerInv s) :=
  inferInstanceAs (Decidable (_ ∧ _ ∧ _))

/-- Invariant of every reachable segmenter state: the framer invariant
plus completeness of all accumulated frames. -/
def SegInv (s : Segmenter) : Prop :=
  FramerInv s.framer ∧ ∀ f ∈ s.buf, FrameOK f

instance (s : Segmenter) : Decidable (SegInv s) :=
  inferInstanceAs (Decidable (_ ∧ _))

/-- A well-formed MPEG frame: its first four bytes decode to exactly its
header, its data length is the length announced by the header, and it is
long enough to contain its own 4-byte header. -/
def ValidFrame (f : MPEGFrame) : Prop :=
  MPEGHeader.parse (f.data.take 4) = some f.header ∧
  f.data.length = f.header.length ∧ 4 ≤ f.header.length

instance (f : MPEGFrame) : Decidable (ValidFrame f) :=
  inferInstanceAs (Decidable (_ ∧ _ ∧ _))

/-- Bytes of a frame stream not yet delivered to the framer: the frames
of fs are still to come and the first t bytes of the head frame were
already consumed. -/
def remOf : List MPEGFrame → Nat → Bytes
  | [], _ => []
  | f :: rest, t => f.data.drop t ++ packframes rest

/-- Characterization of the framer state after consuming, in any
chunking, the first t bytes of the head of fs (all earlier frames fully
consumed): fewer than 4 bytes sit in the leftover buffer, 4 or more make
a pending frame. -/
def InvAt : List MPEGFrame → Nat → Framer → Prop
  | [], t, s => t = 0 ∧ s.buf = [] ∧ s.last_frame = none
  | f :: _, t, s =>
    t < f.header.length ∧
    ((t < 4 ∧ s.buf = f.data.take t ∧ s.last_frame = none) ∨
     (4 ≤ t ∧ s.buf = [] ∧ s.last_frame = some ⟨f.header, f.data.take t⟩))

/-- Fraction addition computes the rational sum. -/
lemma PyRat.val_add (a b : PyRat) (ha : a.den ≠ 0) (hb : b.den ≠ 0) :
    (a + b).val = a.val + b.val := by
  show PyRat.val ⟨a.num * b.den + b.num * a.den, a.den * b.den⟩ = _
  unfold PyRat.val
  have ha2 : (a.den : ℚ) ≠ 0 := Nat.cast_ne_zero.mpr ha
  have hb2 : (b.den : ℚ) ≠ 0 := Nat.cast_ne_zero.mpr hb
  field_simp

/-- Fraction comparison is the rational comparison of the values. -/
lemma PyRat.lt_iff_val (a b : PyRat) (ha : 0 < a.den) (hb : 0 < b.den) :
    a < b ↔ a.val < b.val := by
  show a.num * b.den < b.num * a.den ↔ _
  unfold PyRat.val
  rw [div_lt_div_iff₀ (by exact_mod_cast ha) (by exact_mod_cast hb)]
  norm_cast

/-- Two splittings of one list agree on any shared prefix length. -/
lemma prefix_take_eq {α : Type} {x u y v : List α} (h : x ++ u = y ++ v) {k : Nat}
    (hx : k ≤ x.length) (hy : k ≤ y.length) : x.take k = y.take k := by
  have h2 := congrArg (List.take k) h
  rwa [List.take_append_of_le_length hx, List.take_append_of_le_length hy] at h2

/-- The header decoder only accepts values whose top 11 bits are all
ones. -/
lemma parseI_sync {I : Nat} {h : MPEGHeader} (hp : parseI I = some h) :
    I >>> 21 = 0b11111111111 := by
  by_contra hne
  rw [parseI, if_pos hne] at hp
  cases hp

/-- A successfully parsed header comes from exactly four bytes starting
with the sync byte 255. -/
lemma parse_some_shape {xs : Bytes} {h : MPEGHeader}
    (hp : MPEGHeader.parse xs = some h) :
    ∃ b1 b2 b3 : Byte, xs = [(255 : Byte), b1, b2, b3] := by
  match xs with
  | [] => exact absurd hp (by rw [show MPEGHeader.parse [] = none from rfl]; simp)
  | [a] => exact absurd hp (by rw [show MPEGHeader.parse [a] = none from rfl]; simp)
  | [a, b] => exact absurd hp (by rw [show MPEGHeader.parse [a, b] = none from rfl]; simp)
  | [a, b, c] => exact absurd hp (by rw [show MPEGHeader.parse [a, b, c] = none from rfl]; simp)
  | a :: b :: c :: d :: e :: rest =>
    exact absurd hp (by rw [show MPEGHeader.parse (a :: b :: c :: d :: e :: rest) = none from rfl]; simp)
  | [a, b, c, d] =>
    refine ⟨b, c, d, ?_⟩
    have hu : MPEGHeader.parse [a, b, c, d] =
        parseI (a.val * 2 ^ 24 + b.val * 2 ^ 16 + c.val * 2 ^ 8 + d.val) := rfl
    rw [hu] at hp
    have hsync := parseI_sync hp
    rw [Nat.shiftRight_eq_div_pow] at hsync
    have ha := a.isLt
    have hb := b.isLt
    have hc := c.isLt
    have hd := d.isLt
    have hv : a.val = 255 := by omega
    have : a = (255 : Byte) := Fin.ext hv
    simp [this]

/-- A successfully parsed header announces a nonzero frame length. -/
lemma parseI_length_pos {I : Nat} {h : MPEGHeader} (hp : parseI I = some h) :
    1 ≤ h.length := by
  simp only [parseI, pyStrEqInt, Bool.false_eq_true, if_false] at hp
  split_ifs at hp with h1 h2 h3 h4 h5 h6 h7
  injection hp with hp
  subst hp
  simpa [Nat.one_le_iff_ne_zero] using h6

/-- A successfully parsed header announces a nonzero frame length. -/
lemma parse_some_length_pos {xs : Bytes} {h : MPEGHeader}
    (hp : MPEGHeader.parse xs = some h) : 1 ≤ h.length := by
  unfold MPEGHeader.parse at hp
  cases hu : struct_unpack xs with
  | error e => rw [hu] at hp; cases hp
  | ok I => rw [hu] at hp; exact parseI_length_pos hp

/-- feed_last_frame does nothing when no frame is pending. -/
lemma flf_none {s : Framer} (h : s.last_frame = none) (c : Bytes) :
    Framer.feed_last_frame s c = (s, c) := by
  simp only [Framer.feed_last_frame, h]

/-- feed_last_frame does nothing on an empty chunk. -/
lemma flf_nil (s : Framer) : Framer.feed_last_frame s [] = (s, []) := by
  cases h : s.last_frame <;> simp [Framer.feed_last_frame, h]

/-- feed_last_frame when the chunk is too short to complete the pending
frame: all of it is appended to the pending frame. -/
lemma flf_pend {s : Framer} {lf : MPEGFrame} (h : s.last_frame = some lf) {c : Bytes}
    (hne : c ≠ []) (hlt : c.length < lf.header.length - lf.data.length) :
    Framer.feed_last_frame s c =
      ({ s with last_frame := some ⟨lf.header, lf.data ++ c⟩ }, []) := by
  have h0 : 0 < c.length := List.length_pos.mpr hne
  simp only [Framer.feed_last_frame, h, if_pos h0]
  rw [if_neg (by omega)]

/-- feed_last_frame when the chunk completes the pending frame: the
needed bytes are taken, the completed frame is queued, the rest of the
chunk is handed back. -/
lemma flf_compl {s : Framer} {lf : MPEGFrame} (h : s.last_frame = some lf) {c : Bytes}
    (hne : c ≠ []) (hle : lf.header.length - lf.data.length ≤ c.length) :
    Framer.feed_last_frame s c =
      ({ s with
          frames := s.frames ++ [⟨lf.header, lf.data ++ c.take (lf.header.length - lf.data.length)⟩],
          last_frame := none },
       c.drop (lf.header.length - lf.data.length)) := by
  have h0 : 0 < c.length := List.length_pos.mpr hne
  simp only [Framer.feed_last_frame, h, if_pos h0]
  rw [if_pos hle]

/-- Any complete frame cut by the scan loop has exactly the announced
byte length, and the rest of the buffer is strictly shorter than the
scanned buffer. -/
lemma scanPos_complete {chunk : Bytes} {is : List Nat} {g : Bytes} {f : MPEGFrame}
    {rest : Bytes} (h : scanPos chunk is = ParseRes.complete g f rest) :
    f.data.length = f.header.length ∧ rest.length < chunk.length := by
  induction is with
  | nil => simp [scanPos] at h
  | cons i is ih =>
    rw [scanPos] at h
    cases hp : MPEGHeader.parse ((chunk.drop i).take 4) with
    | none => rw [hp] at h; exact ih h
    | some hdr =>
      rw [hp] at h
      dsimp only at h
      split_ifs at h with hlen
      injection h with h1 h2 h3
      subst h2
      subst h3
      have hpos := parse_some_length_pos hp
      have hld : (chunk.drop i).length = chunk.length - i := List.length_drop i chunk
      constructor
      · simpa using List.length_take_of_le hlen
      · simp only [List.length_drop]
        omega

/-- Any pending frame recorded by the scan loop is strictly shorter than
its announced length. -/
lemma scanPos_pending {chunk : Bytes} {is : List Nat} {g : Bytes} {lf : MPEGFrame}
    (h : scanPos chunk is = ParseRes.pending g lf) :
    lf.data.length < lf.header.length := by
  induction is with
  | nil => simp [scanPos] at h
  | cons i is ih =>
    rw [scanPos] at h
    cases hp : MPEGHeader.parse ((chunk.drop i).take 4) with
    | none => rw [hp] at h; exact ih h
    | some hdr =>
      rw [hp] at h
      dsimp only at h
      split_ifs at h with hlen
      injection h with h1 h2
      subst h2
      simpa using Nat.lt_of_not_le hlen

/-- parse_frame version of scanPos_complete. -/
lemma parse_frame_complete {chunk g rest : Bytes} {f : MPEGFrame}
    (h : Framer.parse_frame chunk = ParseRes.complete g f rest) :
    f.data.length = f.header.length ∧ rest.length < chunk.length :=
  scanPos_complete h

/-- parse_frame version of scanPos_pending. -/
lemma parse_frame_pending {chunk g : Bytes} {lf : MPEGFrame}
    (h : Framer.parse_frame chunk = ParseRes.pending g lf) :
    lf.data.length < lf.header.length :=
  scanPos_pending h

/-- feed_last_frame never touches the leftover buffer. -/
lemma flf_buf (s : Framer) (c : Bytes) :
    (Framer.feed_last_frame s c).1.buf = s.buf := by
  unfold Framer.feed_last_frame
  cases s.last_frame
  · rfl
  · dsimp only
    split_ifs <;> rfl

/-- feed_last_frame hands back at most the bytes it was given. -/
lemma flf_chunk_le (s : Framer) (c : Bytes) :
    (Framer.feed_last_frame s c).2.length ≤ c.length := by
  unfold Framer.feed_last_frame
  cases s.last_frame
  · exact Nat.le_refl _
  · dsimp only
    split_ifs <;> simp

/-- feed_last_frame preserves the framer invariant: a completed pending
frame has exactly its announced length, a still-pending one stays
strictly short. -/
lemma flf_inv {s : Framer} (c : Bytes) (h : FramerInv s) :
    FramerInv (Framer.feed_last_frame s c).1 := by
  obtain ⟨hframes, hpend, hbuf⟩ := h
  unfold Framer.feed_last_frame
  cases hlf : s.last_frame with
  | none => exact ⟨hframes, by rw [hlf] at hpend ⊢; exact hpend, hbuf⟩
  | some lf =>
    have hlt : lf.data.length < lf.header.length := by
      rw [hlf] at hpend; exact hpend
    dsimp only
    split_ifs with h0 hr
    · refine ⟨?_, trivial, hbuf⟩
      intro f hf
      rcases List.mem_append.mp hf with hf | hf
      · exact hframes f hf
      · rcases List.mem_singleton.mp hf with rfl
        show _ = _
        simp only [List.length_append]
        rw [List.length_take_of_le hr]
        omega
    · refine ⟨hframes, ?_, hbuf⟩
      show _ < _
      simp only [List.length_append]
      omega
    · exact ⟨hframes, by rw [hlf] at hpend ⊢; exact hpend, hbuf⟩

/-- Framer.feed preserves the framer invariant and only ever returns
complete frames. -/
lemma feedAux_ok : ∀ (fuel : Nat) (s : Framer) (c : Bytes),
    s.buf.length + c.length < fuel → FramerInv s →
    FramerInv (feedAux fuel s c).1 ∧ ∀ f ∈ (feedAux fuel s c).2, FrameOK f := by
  intro fuel
  induction fuel with
  | zero => intro s c hm; omega
  | succ n ih =>
    intro s c hm hinv
    rcases hflf : Framer.feed_last_frame s c with ⟨s1, c1⟩
    have hinv1 : FramerInv s1 := by
      have := flf_inv c hinv
      rw [hflf] at this
      exact this
    have hbufeq : s1.buf = s.buf := by
      have := flf_buf s c
      rw [hflf] at this
      exact this
    have hc1 : c1.length ≤ c.length := by
      have := flf_chunk_le s c
      rw [hflf] at this
      exact this
    obtain ⟨hfr1, hpd1, hbl1⟩ := hinv1
    simp only [feedAux, hflf]
    split_ifs with h4
    · exact ⟨⟨hfr1, hpd1, by simp only [List.length_append]; omega⟩, by simp⟩
    · cases hpf : Framer.parse_frame (s1.buf ++ c1) with
      | noHeader =>
        dsimp only
        exact ⟨⟨by simp, hpd1, by simp⟩, fun f hf => hfr1 f hf⟩
      | pending g lf =>
        dsimp only
        exact ⟨⟨by simp, parse_frame_pending hpf, by simp⟩, fun f hf => hfr1 f hf⟩
      | complete g f rest =>
        dsimp only
        obtain ⟨hok, hrest⟩ := parse_frame_complete hpf
        have hble : s1.buf.length = s.buf.length := by rw [hbufeq]
        have hrest2 : rest.length < s.buf.length + c.length := by
          simp only [List.length_append] at hrest
          omega
        refine ih _ rest (by simp only [List.length_nil]; omega) ?_
        refine ⟨?_, hpd1, by simp⟩
        intro f2 hf2
        rcases List.mem_append.mp hf2 with hf2 | hf2
        · exact hfr1 f2 hf2
        · rcases List.mem_singleton.mp hf2 with rfl
          exact hok

/-- Framer.feed level version of the invariant preservation. -/
lemma feed_ok {s : Framer} {c : Bytes} (h : FramerInv s) :
    FramerInv (Framer.feed s c).1 ∧ ∀ f ∈ (Framer.feed s c).2, FrameOK f :=
  feedAux_ok _ s c (by omega) h

/-- At a frame boundary nothing of the head frame is consumed yet. -/
lemma remOf_zero (fsr : List MPEGFrame) : remOf fsr 0 = packframes fsr := by
  cases fsr <;> simp [remOf, packframes]

/-- The boundary state characterization holds for any framer with an
empty buffer and no pending frame. -/
lemma InvAt_zero {fsr : List MPEGFrame} (hval : ∀ f ∈ fsr, ValidFrame f) {s : Framer}
    (hbuf : s.buf = []) (hlf : s.last_frame = none) : InvAt fsr 0 s := by
  cases fsr with
  | nil => exact ⟨rfl, hbuf, hlf⟩
  | cons f rest =>
    have hv := hval f (List.mem_cons_self f rest)
    exact ⟨by have := hv.2.2; omega,
           Or.inl ⟨by omega, by rw [hbuf, List.take_zero], hlf⟩⟩

/-- Scanning a buffer that begins at a frame boundary, with the whole
frame available: the frame is cut exactly, with no garbage, and the
scan position after it realigns with the remaining stream. -/
lemma parse_frame_aligned_complete {f : MPEGFrame} (hf : ValidFrame f) {B R2 rs : Bytes}
    (hBR : B ++ R2 = f.data ++ rs) (h4 : 4 ≤ B.length) (hL : f.header.length ≤ B.length) :
    Framer.parse_frame B = ParseRes.complete [] f (B.drop f.header.length) ∧
    B.drop f.header.length ++ R2 = rs := by
  obtain ⟨hparse, hlen_eq, h4L⟩ := hf
  have hdlen : 4 ≤ f.data.length := by omega
  have htake4 : B.take 4 = f.data.take 4 := prefix_take_eq hBR h4 hdlen
  obtain ⟨b1, b2, b3, hshape⟩ := parse_some_shape hparse
  have htakeL : B.take f.header.length = f.data := by
    have := prefix_take_eq hBR hL (by omega)
    rwa [show f.data.take f.header.length = f.data from by
      rw [← hlen_eq]; exact List.take_length f.data] at this
  have hdropL : B.drop f.header.length ++ R2 = rs := by
    have h2 := congrArg (List.drop f.header.length) hBR
    rwa [List.drop_append_of_le_length hL, List.drop_left' hlen_eq] at h2
  obtain ⟨b, B', rfl⟩ : ∃ b B', B = b :: B' := by
    cases B with
    | nil => simp at h4
    | cons b B' => exact ⟨b, B', rfl⟩
  have hb : b = (255 : Byte) := by
    rw [hshape] at htake4
    simpa using congrArg List.head? htake4
  subst hb
  have hff : ffIndices ((255 : Byte) :: B') = 0 :: ffAux B' 1 := by
    simp [ffIndices, ffAux]
  have hp0 : MPEGHeader.parse ((((255 : Byte) :: B').drop 0).take 4) = some f.header := by
    rw [List.drop_zero, htake4]
    exact hparse
  refine ⟨?_, hdropL⟩
  rw [Framer.parse_frame, hff, scanPos, hp0]
  dsimp only
  rw [if_pos (by simpa using hL)]
  have hfr : (⟨f.header, (((255 : Byte) :: B').drop 0).take f.header.length⟩ : MPEGFrame) = f := by
    rw [List.drop_zero, htakeL]
  rw [hfr]
  simp

/-- Scanning a buffer that begins at a frame boundary, with only part of
the frame available: the whole buffer is recorded as the pending frame,
with no garbage. -/
lemma parse_frame_aligned_pending {f : MPEGFrame} (hf : ValidFrame f) {B R2 rs : Bytes}
    (hBR : B ++ R2 = f.data ++ rs) (h4 : 4 ≤ B.length) (hL : B.length < f.header.length) :
    Framer.parse_frame B = ParseRes.pending [] ⟨f.header, B⟩ ∧
    B = f.data.take B.length := by
  obtain ⟨hparse, hlen_eq, h4L⟩ := hf
  have hdlen : 4 ≤ f.data.length := by omega
  have htake4 : B.take 4 = f.data.take 4 := prefix_take_eq hBR h4 hdlen
  obtain ⟨b1, b2, b3, hshape⟩ := parse_some_shape hparse
  have hBeq : B = f.data.take B.length := by
    have := prefix_take_eq hBR (Nat.le_refl _) (by omega)
    rwa [List.take_length B] at this
  obtain ⟨b, B', rfl⟩ : ∃ b B', B = b :: B' := by
    cases B with
    | nil => simp at h4
    | cons b B' => exact ⟨b, B', rfl⟩
  have hb : b = (255 : Byte) := by
    rw [hshape] at htake4
    simpa using congrArg List.head? htake4
  subst hb
  have hff : ffIndices ((255 : Byte) :: B') = 0 :: ffAux B' 1 := by
    simp [ffIndices, ffAux]
  have hp0 : MPEGHeader.parse ((((255 : Byte) :: B').drop 0).take 4) = some f.header := by
    rw [List.drop_zero, htake4]
    exact hparse
  refine ⟨?_, hBeq⟩
  rw [Framer.parse_frame, hff, scanPos, hp0]
  dsimp only
  rw [if_neg (by simpa using Nat.not_le_of_lt hL)]
  simp

/-- Core simulation argument for chunk-boundary invariance, for a
framer with no pending frame: feeding any prefix of the remaining
stream of a well-formed frame sequence moves the boundary state forward,
completes exactly the frames that were fully delivered (keeping their
order, split between the returned list and the internal queue), and
keeps the machine aligned on the stream. -/
lemma feed_main : ∀ (fuel : Nat) (s : Framer) (c R2 : Bytes) (fsr : List MPEGFrame) (t : Nat),
    s.last_frame = none →
    s.buf.length + c.length < fuel →
    (∀ f ∈ fsr, ValidFrame f) →
    InvAt fsr t s →
    c ++ R2 = remOf fsr t →
    ∃ d fsr2 t2,
      fsr = d ++ fsr2 ∧
      InvAt fsr2 t2 (feedAux fuel s c).1 ∧
      remOf fsr2 t2 = R2 ∧
      (feedAux fuel s c).2 ++ (feedAux fuel s c).1.frames = s.frames ++ d := by
  intro fuel
  induction fuel with
  | zero => intro s c R2 fsr t hlf hm; omega
  | succ n ih =>
    intro s c R2 fsr t hlf hm hval hinv hrem
    simp only [feedAux, flf_none hlf]
    cases fsr with
    | nil =>
      obtain ⟨ht, hbuf, hlfn⟩ := hinv
      rw [show remOf [] t = [] from rfl] at hrem
      obtain ⟨rfl, rfl⟩ := List.append_eq_nil.mp hrem
      rw [if_pos (by simp [hbuf])]
      exact ⟨[], [], 0, rfl, ⟨rfl, by simp [hbuf], hlfn⟩, rfl, by simp⟩
    | cons f rest =>
      obtain ⟨htL, hdisj⟩ := hinv
      rcases hdisj with ⟨ht4, hbufeq, _⟩ | ⟨_, _, hlfs⟩
      swap
      · rw [hlf] at hlfs; cases hlfs
      obtain ⟨hparse, hlen_eq, h4L⟩ := hval f (List.mem_cons_self f rest)
      have hbl : s.buf.length = t := by
        rw [hbufeq]; exact List.length_take_of_le (by omega)
      rw [show remOf (f :: rest) t = f.data.drop t ++ packframes rest from rfl] at hrem
      by_cases h4c : s.buf.length + c.length < 4
      · rw [if_pos h4c]
        have hclen : c.length ≤ (f.data.drop t).length := by
          simp only [List.length_drop]; omega
        have hceq : c = (f.data.drop t).take c.length := by
          have := prefix_take_eq hrem (Nat.le_refl c.length) hclen
          rwa [List.take_length c] at this
        have hbufnew : s.buf ++ c = f.data.take (t + c.length) := by
          conv_lhs => rw [hbufeq, hceq]
          rw [← List.take_add]
        have hrem2 : f.data.drop (t + c.length) ++ packframes rest = R2 := by
          have h2 := congrArg (List.drop c.length) hrem
          rw [List.drop_left, List.drop_append_of_le_length hclen,
              List.drop_drop] at h2
          exact h2.symm
        refine ⟨[], f :: rest, t + c.length, rfl, ⟨by omega, Or.inl ⟨by omega, ?_, hlf⟩⟩,
                hrem2, by simp⟩
        exact hbufnew
      · rw [if_neg h4c]
        have hcomb : (s.buf ++ c) ++ R2 = f.data ++ packframes rest := by
          rw [List.append_assoc, hrem, hbufeq, ← List.append_assoc, List.take_append_drop]
        have hcombLen : (s.buf ++ c).length = t + c.length := by
          simp [List.length_append, hbl]
        have h4comb : 4 ≤ (s.buf ++ c).length := by
          simp only [List.length_append]; omega
        by_cases hLc : f.header.length ≤ (s.buf ++ c).length
        · obtain ⟨hpf, hrs⟩ :=
            parse_frame_aligned_complete ⟨hparse, hlen_eq, h4L⟩ hcomb h4comb hLc
          rw [hpf]
          dsimp only
          have hrest2len : ((s.buf ++ c).drop f.header.length).length < n := by
            simp only [List.length_drop, List.length_append] at *
            omega
          obtain ⟨d', fsr2, t2, hsp, hinv2, hrem2, hout⟩ :=
            ih { buf := [], frames := s.frames ++ [f], last_frame := s.last_frame }
              ((s.buf ++ c).drop f.header.length) R2 rest 0 hlf
              (by simpa using hrest2len)
              (fun g hg => hval g (List.mem_cons_of_mem f hg))
              (InvAt_zero (fun g hg => hval g (List.mem_cons_of_mem f hg)) rfl hlf)
              (by rw [remOf_zero]; exact hrs)
          refine ⟨f :: d', fsr2, t2, by simp [hsp], hinv2, hrem2, ?_⟩
          rw [hout]
          simp
        · have hLgt : (s.buf ++ c).length < f.header.length := Nat.lt_of_not_le hLc
          obtain ⟨hpf, hBeq⟩ :=
            parse_frame_aligned_pending ⟨hparse, hlen_eq, h4L⟩ hcomb h4comb hLgt
          rw [hpf]
          dsimp only
          have hrem2 : f.data.drop (s.buf ++ c).length ++ packframes rest = R2 := by
            have h2 := congrArg (List.drop (s.buf ++ c).length) hcomb
            rw [List.drop_left, List.drop_append_of_le_length (by omega)] at h2
            exact h2.symm
          exact ⟨[], f :: rest, (s.buf ++ c).length,
                 rfl,
                 ⟨hLgt, Or.inr ⟨by omega, rfl, by rw [← hBeq]⟩⟩,
                 hrem2,
                 by simp⟩

/-- After feed_last_frame has run and cleared the pending slot, the rest
of the feed body coincides with a fresh feed call on the updated state
(whose own feed_last_frame is a no-op). -/
lemma feedAux_reenter {s s1 : Framer} {c c2 : Bytes} (n : Nat)
    (hflf : Framer.feed_last_frame s c = (s1, c2)) (hlf1 : s1.last_frame = none) :
    feedAux (n + 1) s c = feedAux (n + 1) s1 c2 := by
  conv_lhs => rw [feedAux]
  conv_rhs => rw [feedAux]
  rw [hflf, flf_none hlf1]

/-- Full step lemma for chunk-boundary invariance: one feed call from
any aligned state (pending frame or not) consumes its chunk of the
stream, emits exactly the newly completed frames in order (as returned
frames plus queued frames), and lands in the aligned state for the rest
of the stream. -/
lemma feed_step (fuel : Nat) (s : Framer) (c R2 : Bytes) (fsr : List MPEGFrame) (t : Nat)
    (hm : s.buf.length + c.length < fuel)
    (hval : ∀ f ∈ fsr, ValidFrame f)
    (hinv : InvAt fsr t s)
    (hrem : c ++ R2 = remOf fsr t) :
    ∃ d fsr2 t2,
      fsr = d ++ fsr2 ∧
      InvAt fsr2 t2 (feedAux fuel s c).1 ∧
      remOf fsr2 t2 = R2 ∧
      (feedAux fuel s c).2 ++ (feedAux fuel s c).1.frames = s.frames ++ d := by
  match fuel with
  | 0 => omega
  | n + 1 =>
    cases hlf : s.last_frame with
    | none => exact feed_main (n + 1) s c R2 fsr t hlf hm hval hinv hrem
    | some lf =>
      cases fsr with
      | nil =>
        obtain ⟨-, -, hlfn⟩ := hinv
        rw [hlf] at hlfn; cases hlfn
      | cons f rest =>
        obtain ⟨htL, hdisj⟩ := hinv
        rcases hdisj with ⟨-, -, hlfn⟩ | ⟨ht4, hbufeq, hlfs⟩
        · rw [hlf] at hlfn; cases hlfn
        obtain ⟨hparse, hlen_eq, h4L⟩ := hval f (List.mem_cons_self f rest)
        rw [hlf] at hlfs
        injection hlfs with hlfs
        rw [show remOf (f :: rest) t = f.data.drop t ++ packframes rest from rfl] at hrem
        have hdlen : lf.data.length = t := by
          rw [hlfs]
          exact List.length_take_of_le (by omega)
        have hhl : lf.header.length = f.header.length := by rw [hlfs]
        have hble : s.buf.length = 0 := by rw [hbufeq]; rfl
        have hlh : lf.header = f.header := by rw [hlfs]
        have hld : lf.data = f.data.take t := by rw [hlfs]
        by_cases hc0 : c = []
        · subst hc0
          simp only [feedAux, flf_nil]
          rw [if_pos (show List.length s.buf + List.length ([] : Bytes) < 4 by
            simp only [List.length_nil]; omega)]
          refine ⟨[], f :: rest, t, rfl, ⟨htL, Or.inr ⟨ht4, ?_, ?_⟩⟩, ?_, by simp⟩
          · simp [hbufeq]
          · rw [hlf, hlfs]
          · simpa using hrem.symm
        · by_cases hrc : lf.header.length - lf.data.length ≤ c.length
          · -- the chunk completes the pending frame
            have hr : lf.header.length - lf.data.length = f.header.length - t := by omega
            have hrlen : (f.data.drop t).length = f.header.length - t := by
              simp only [List.length_drop]; omega
            have hctake : c.take (f.header.length - t) = f.data.drop t := by
              have h1 : c.take (f.header.length - t) = (c ++ R2).take (f.header.length - t) :=
                (List.take_append_of_le_length (by omega)).symm
              rw [h1, hrem, List.take_append_of_le_length (by omega),
                  show f.header.length - t = (f.data.drop t).length from hrlen.symm,
                  List.take_length]
            have hflf2 := flf_compl hlf hc0 hrc
            rw [hr, hlh, hld, hctake, List.take_append_drop] at hflf2
            rw [show (⟨f.header, f.data⟩ : MPEGFrame) = f from rfl] at hflf2
            have hre := feedAux_reenter n hflf2 rfl
            rw [hre]
            have hc2rem : c.drop (f.header.length - t) ++ R2 = remOf rest 0 := by
              rw [remOf_zero]
              have h2 := congrArg (List.drop (f.header.length - t)) hrem
              rw [List.drop_append_of_le_length (by omega),
                  List.drop_append_of_le_length (by rw [hrlen]),
                  show List.drop (f.header.length - t) (List.drop t f.data) = [] from
                    List.drop_eq_nil_of_le (by rw [hrlen])] at h2
              simpa using h2
            obtain ⟨d', fsr2, t2, hsp, hinv2, hrem2, hout⟩ :=
              feed_main (n + 1)
                { s with frames := s.frames ++ [f], last_frame := none }
                (c.drop (f.header.length - t)) R2 rest 0 rfl
                (show s.buf.length + (c.drop (f.header.length - t)).length < n + 1 by
                  simp only [List.length_drop]; omega)
                (fun g hg => hval g (List.mem_cons_of_mem f hg))
                (InvAt_zero (fun g hg => hval g (List.mem_cons_of_mem f hg)) hbufeq rfl)
                hc2rem
            refine ⟨f :: d', fsr2, t2, by simp [hsp], hinv2, hrem2, ?_⟩
            rw [hout]
            simp
          · -- the chunk is swallowed whole by the pending frame
            have hcl : c.length < f.header.length - t := by omega
            have hflf2 := flf_pend hlf hc0 (by omega)
            simp only [feedAux, hflf2]
            rw [if_pos (show List.length s.buf + List.length ([] : Bytes) < 4 by
              simp only [List.length_nil]; omega)]
            have hclen : c.length ≤ (f.data.drop t).length := by
              simp only [List.length_drop]; omega
            have hceq : c = (f.data.drop t).take c.length := by
              have := prefix_take_eq hrem (Nat.le_refl c.length) hclen
              rwa [List.take_length c] at this
            have hlfnew : lf.data ++ c = f.data.take (t + c.length) := by
              conv_lhs => rw [hld, hceq]
              rw [← List.take_add]
            have hrem2 : f.data.drop (t + c.length) ++ packframes rest = R2 := by
              have h2 := congrArg (List.drop c.length) hrem
              rw [List.drop_left, List.drop_append_of_le_length hclen,
                  List.drop_drop] at h2
              exact h2.symm
            refine ⟨[], f :: rest, t + c.length, rfl,
                    ⟨by omega, Or.inr ⟨by omega, by simp [hbufeq], ?_⟩⟩, hrem2, by simp⟩
            rw [hlh, hlfnew]

/-- Feeding any chunking of the remaining stream from an aligned state
produces exactly the remaining frames, in order, split between the
returned lists and the final internal queue. -/
lemma feedChunks_complete : ∀ (cs : List Bytes) (s : Framer) (fsr : List MPEGFrame) (t : Nat),
    (∀ f ∈ fsr, ValidFrame f) → InvAt fsr t s → cs.flatten = remOf fsr t →
    (feedChunks s cs).2 ++ (feedChunks s cs).1.frames = s.frames ++ fsr := by
  intro cs
  induction cs with
  | nil =>
    intro s fsr t hval hinv hrem
    cases fsr with
    | nil => simp [feedChunks]
    | cons f rest =>
      exfalso
      obtain ⟨hparse, hlen_eq, h4L⟩ := hval f (List.mem_cons_self f rest)
      obtain ⟨htL, -⟩ := hinv
      rw [show remOf (f :: rest) t = f.data.drop t ++ packframes rest from rfl] at hrem
      have hl := congrArg List.length hrem
      simp only [List.flatten_nil, List.length_nil, List.length_append,
                 List.length_drop] at hl
      omega
  | cons c cs ih =>
    intro s fsr t hval hinv hrem
    obtain ⟨d, fsr2, t2, hsp, hinv2, hrem2, hout⟩ :=
      feed_step (s.buf.length + c.length + 1) s c cs.flatten fsr t (by omega) hval hinv
        (by rw [← hrem]; simp)
    have hval2 : ∀ f ∈ fsr2, ValidFrame f := by
      intro f hf
      exact hval f (by rw [hsp]; exact List.mem_append_right d hf)
    have hrec := ih (Framer.feed s c).1 fsr2 t2 hval2 hinv2 hrem2.symm
    simp only [feedChunks]
    rw [List.append_assoc, hrec, ← List.append_assoc]
    show (feedAux (s.buf.length + c.length + 1) s c).2 ++
        (feedAux (s.buf.length + c.length + 1) s c).1.frames ++ fsr2 = s.frames ++ fsr
    rw [hout, List.append_assoc, ← hsp]

/-- One-byte chunking reassembles to the original byte list. -/
lemma chunks1_flatten (xs : Bytes) : (chunks1 xs).flatten = xs := by
  induction xs with
  | nil => rfl
  | cons b bs ih => simp [chunks1] at ih ⊢; exact ih

/-- Fixed-size chunking reassembles to the original byte list. -/
lemma chunksOfAux_flatten : ∀ (fuel n : Nat) (xs : Bytes), 0 < n → xs.length < fuel →
    (chunksOfAux fuel n xs).flatten = xs := by
  intro fuel
  induction fuel with
  | zero => intro n xs hn hf; omega
  | succ m ih =>
    intro n xs hn hf
    match n, hn with
    | n + 1, _ =>
      cases xs with
      | nil => rfl
      | cons b bs =>
        rw [show chunksOfAux (m + 1) (n + 1) (b :: bs) =
              (b :: bs).take (n + 1) :: chunksOfAux m (n + 1) ((b :: bs).drop (n + 1)) from rfl]
        rw [List.flatten_cons]
        rw [ih (n + 1) ((b :: bs).drop (n + 1)) (by omega)
             (by simp only [List.length_drop]; simp at hf ⊢; omega)]
        exact List.take_append_drop _ _

/-- Fixed-size chunking reassembles to the original byte list. -/
lemma chunksOf_flatten (n : Nat) (xs : Bytes) (hn : 0 < n) :
    (chunksOf n xs).flatten = xs :=
  chunksOfAux_flatten _ n xs hn (by omega)

/-- Any chunking of the byte stream of a well-formed frame sequence
yields, over all feed calls plus the final internal queue, exactly that
frame sequence. -/
lemma yield_eq {fs : List MPEGFrame} (hval : ∀ f ∈ fs, ValidFrame f) {cs : List Bytes}
    (hcs : cs.flatten = packframes fs) : yieldOf cs = fs := by
  have h := feedChunks_complete cs Framer.init fs 0 hval
    (InvAt_zero hval rfl rfl) (by rw [remOf_zero]; exact hcs)
  simpa [yieldOf, Framer.init] using h

/-- The segment accumulation loop only moves frames around: if the
incoming frames and both accumulators hold complete frames, so do the
final accumulation buffer and the emitted segment. -/
lemma segLoop_ok : ∀ (frames : List MPEGFrame) (budget : PyRat) (buf : List MPEGFrame)
    (dur : PyRat) (seg : List MPEGFrame),
    (∀ f ∈ buf, FrameOK f) → (∀ f ∈ seg, FrameOK f) → (∀ f ∈ frames, FrameOK f) →
    (∀ f ∈ (segLoop budget buf dur seg frames).1, FrameOK f) ∧
    (∀ f ∈ (segLoop budget buf dur seg frames).2.2, FrameOK f) := by
  intro frames
  induction frames with
  | nil =>
    intro budget buf dur seg hb hs hf
    exact ⟨hb, hs⟩
  | cons f fs ih =>
    intro budget buf dur seg hb hs hf
    rw [segLoop]
    split_ifs with h
    · exact ih budget [] (PyRat.ofNat 0) buf (by simp) hb
        (fun g hg => hf g (List.mem_cons_of_mem f hg))
    · refine ih budget (buf ++ [f]) (dur + f.duration) seg ?_ hs
        (fun g hg => hf g (List.mem_cons_of_mem f hg))
      intro g hg
      rcases List.mem_append.mp hg with hg | hg
      · exact hb g hg
      · rcases List.mem_singleton.mp hg with rfl
        exact hf g (List.mem_cons_self g fs)

/-- C1: the claim states that a frame whose arrival would push the
accumulated duration past the budget becomes the first frame of the next
accumulation and is never dropped, and that a single over-budget frame
gets its own segment. The code does otherwise: with budget 60 ms and
three 48 ms frames surfaced in one call, the middle frame vanishes (the
call emits the first frame as a segment, the third frame starts the new
accumulation, the second is in neither), and a single 48 ms frame
against a 40 ms budget produces an empty segment while the frame itself
is lost. -/
theorem C1_overflow_frame_dropped :
    segC1.2 = [frameA 1] ∧
    segC1.1.buf = [frameA 3] ∧
    frameA 2 ∉ segC1.2 ∧
    frameA 2 ∉ segC1.1.buf ∧
    segLoop (PyRat.ofNat 40) [] (PyRat.ofNat 0) [] [frameA 1] =
      ([], PyRat.ofNat 0, []) := by
  set_option maxRecDepth 10000 in decide

/-- C2: the claim states that one feed call whose frames cross the
budget k times surfaces all k completed segments in order. The code
keeps only the last one: with budget 60 ms and five 48 ms frames in one
call (two budget crossings), the call returns only the second completed
segment; the first completed segment (the first frame) is overwritten
and lost, and the two boundary frames are dropped entirely. -/
theorem C2_only_last_segment_surfaced :
    segC2.2 = [frameA 3] ∧
    segC2.1.buf = [frameA 5] ∧
    frameA 1 ∉ segC2.2 ∧
    frameA 1 ∉ segC2.1.buf ∧
    frameA 2 ∉ segC2.2 ∧
    frameA 2 ∉ segC2.1.buf ∧
    frameA 4 ∉ segC2.2 ∧
    frameA 4 ∉ segC2.1.buf := by
  set_option maxRecDepth 20000 in decide

/-- C3 counterexample: feeding the same two-frame byte stream as one
single chunk or as one-byte chunks makes the framer RETURN different
frame sequences across the calls (the single-chunk call returns nothing
and leaves both frames in the internal queue; the one-byte split returns
the first frame), so the claim as stated, about the frames yielded by
the calls, is false. -/
theorem C3_counterexample :
    returnedOf [packframes [frameA 1, frameA 2]] ≠
      returnedOf (chunks1 (packframes [frameA 1, frameA 2])) := by decide

/-- C3 (amended): for every byte stream made of well-formed MPEG frames
(each containing its own 4-byte header, with data length equal to the
header frame length), feeding it split into 1-byte chunks, 4-byte
chunks, or as one single chunk produces the identical frame sequence —
the original frames in order — once the frames still queued inside the
assembler at the end (returned by the source on a later call) are
counted together with the frames returned by the calls. -/
theorem C3_chunk_invariance (fs : List MPEGFrame) (hval : ∀ f ∈ fs, ValidFrame f) :
    yieldOf (chunks1 (packframes fs)) = fs ∧
    yieldOf (chunksOf 4 (packframes fs)) = fs ∧
    yieldOf [packframes fs] = fs :=
  ⟨yield_eq hval (chunks1_flatten _),
   yield_eq hval (chunksOf_flatten 4 _ (by omega)),
   yield_eq hval (by simp)⟩

theorem C3_chunk_invariance_witness :
    (∀ f ∈ [frameA 1, frameA 2], ValidFrame f) ∧
    yieldOf (chunks1 (packframes [frameA 1, frameA 2])) = [frameA 1, frameA 2] ∧
    yieldOf (chunksOf 4 (packframes [frameA 1, frameA 2])) = [frameA 1, frameA 2] ∧
    yieldOf [packframes [frameA 1, frameA 2]] = [frameA 1, frameA 2] :=
  have hv : ∀ f ∈ [frameA 1, frameA 2], ValidFrame f := by decide
  ⟨hv, C3_chunk_invariance [frameA 1, frameA 2] hv⟩

/-- C4 counterexample: from the reachable state with one accumulated
frame and a pending 4-byte partial frame, done returns the accumulated
frames WITH the partial frame appended, not exactly the accumulated
frames, contradicting the claim that the pending partial frame is not
included. -/
theorem C4_counterexample :
    (Segmenter.done stPend).2 ≠ stPend.buf ∧
    (Segmenter.done stPend).2 = stPend.buf ++ [⟨hdrA, hdrABytes⟩] := by decide

/-- C4 (amended): Segmenter.done returns the accumulated frames with
the pending incomplete frame of the framer appended as a trailing
element when one exists (surfacing it to the caller rather than omitting
it), and clears the accumulation buffer; the appended trailing frame is
strictly shorter than its header announces, so it is distinguishable
from a complete frame and is never passed off as one. -/
theorem C4_done_includes_pending (s : Segmenter) (h : PendOK s.framer.last_frame) :
    (Segmenter.done s).2 = s.buf ++ s.framer.last_frame.toList ∧
    (Segmenter.done s).1.buf = [] ∧
    ∀ f ∈ s.framer.last_frame.toList, f.data.length < f.header.length := by
  cases hlf : s.framer.last_frame with
  | none => simp [Segmenter.done, hlf]
  | some lf =>
    rw [hlf] at h
    refine ⟨?_, ?_, ?_⟩
    · simp [Segmenter.done, hlf]
    · simp [Segmenter.done, hlf]
    · intro f hf
      rcases List.mem_singleton.mp (by simpa using hf) with rfl
      exact h

theorem C4_done_includes_pending_witness :
    PendOK stPend.framer.last_frame ∧
    (Segmenter.done stPend).2 = stPend.buf ++ stPend.framer.last_frame.toList :=
  ⟨by decide, (C4_done_includes_pending stPend (by decide)).1⟩

/-- C5: the claim states the standard Layer I frame length formula
(12 * bitrate * 1000 / rate + padding) * 4 and 384-sample duration. The
code, which documents exactly those formulas in its own comment block,
compares the layer name STRING against the int 3, which is always false
in Python 2, so a valid MPEG-1 Layer I header gets the Layer II/III
formulas: length 144 * 32000 / 44100 = 104 instead of 32, duration
1152 / 44.1 = 1280/49 ms instead of 384 / 44.1; the unreachable Layer I
branch moreover multiplies by 8 where the comment says 4. -/
theorem C5_layer1_formula_evidence :
    MPEGHeader.parse hdrL1Bytes = some hdrL1 ∧
    hdrL1.layer = "I" ∧
    hdrL1.length = 104 ∧
    hdrL1.duration.val = 1280 / 49 ∧
    hdrL1.length ≠ (12 * 32 * 1000 / 44100 + 0) * 4 ∧
    hdrL1.duration.val ≠ 384 / ((44100 : ℚ) / 1000) := by
  refine ⟨by decide, rfl, rfl, ?_, by decide, ?_⟩
  · show ((1152000 : ℚ) / 44100) = 1280 / 49
    norm_num
  · show ¬((1152000 : ℚ) / 44100) = 384 / ((44100 : ℚ) / 1000)
    norm_num

/-- C6: for every 4-byte input whose top 11 bits are not all ones, or
whose version field is the reserved codepoint 01, layer field is 00,
bitrate index is 1111, sampling-rate index is 11, or emphasis field is
10, MPEGHeader.parse returns no header. -/
theorem C6_reserved_rejected (b0 b1 b2 b3 : Byte)
    (h : be32 b0 b1 b2 b3 >>> 21 ≠ 0b11111111111 ∨
         (be32 b0 b1 b2 b3 >>> 19) % 4 = 0b01 ∨
         (be32 b0 b1 b2 b3 >>> 17) % 4 = 0b00 ∨
         (be32 b0 b1 b2 b3 >>> 12) % 16 = 0b1111 ∨
         (be32 b0 b1 b2 b3 >>> 10) % 4 = 0b11 ∨
         be32 b0 b1 b2 b3 % 4 = 0b10) :
    MPEGHeader.parse [b0, b1, b2, b3] = none := by
  have hu : MPEGHeader.parse [b0, b1, b2, b3] = parseI (be32 b0 b1 b2 b3) := rfl
  rw [hu]
  set I := be32 b0 b1 b2 b3 with hI
  simp only [parseI, pyStrEqInt, Bool.false_eq_true, if_false]
  rcases h with h | h | h | h | h | h <;> split_ifs <;> first | rfl | contradiction

theorem C6_reserved_rejected_witness :
    (be32 255 255 255 255 >>> 12) % 16 = 0b1111 ∧
    MPEGHeader.parse [255, 255, 255, 255] = none :=
  have h : (be32 255 255 255 255 >>> 12) % 16 = 0b1111 := by decide
  ⟨h, C6_reserved_rejected 255 255 255 255 (Or.inr (Or.inr (Or.inr (Or.inl h))))⟩

/-- C7 counterexample: a 4-byte chunk that starts with the sync byte but
parses as no valid header anywhere is NOT retained in the buffer — the
fresh framer ends the call with an empty buffer, contradicting the claim
that the unconsumed bytes are retained for the next call. -/
theorem C7_counterexample :
    ¬((Framer.feed Framer.init [255, 1, 2, 3]).1.buf = [255, 1, 2, 3]) := by decide

/-- C7 (amended): when no pending frame is in play and the scanned
buffer (4 bytes or more) contains no valid header at any 255 candidate
position, the whole scanned buffer is DISCARDED as garbage — nothing is
retained for the next call — and the call returns the frames queued so
far; bytes are retained only when the combined buffer is shorter than 4
bytes. -/
theorem C7_no_header_discards_buffer (s : Framer) (c : Bytes)
    (hlf : s.last_frame = none)
    (h4 : 4 ≤ s.buf.length + c.length)
    (hnh : Framer.parse_frame (s.buf ++ c) = ParseRes.noHeader) :
    Framer.feed s c = ({ s with buf := [], frames := [] }, s.frames) := by
  show feedAux (s.buf.length + c.length + 1) s c = _
  simp only [feedAux, flf_none hlf]
  rw [if_neg (by omega), hnh]

theorem C7_no_header_discards_buffer_witness :
    Framer.init.last_frame = none ∧
    4 ≤ Framer.init.buf.length + ([255, 1, 2, 3] : Bytes).length ∧
    Framer.parse_frame (Framer.init.buf ++ [255, 1, 2, 3]) = ParseRes.noHeader ∧
    Framer.feed Framer.init [255, 1, 2, 3] =
      ({ Framer.init with buf := [], frames := [] }, Framer.init.frames) :=
  ⟨rfl, by decide, by decide,
   C7_no_header_discards_buffer Framer.init [255, 1, 2, 3] rfl (by decide) (by decide)⟩

/-- C8 counterexample: the segment returned by Segmenter.done from the
reachable state with a pending 4-byte partial frame contains a frame
whose data length (4) differs from its header frame length (48),
contradicting the claim that every frame inside a segment returned by
Segmenter.done satisfies the length invariant. -/
theorem C8_counterexample :
    (Segmenter.done stPend).2 = [frameA 1, ⟨hdrA, hdrABytes⟩] ∧
    (⟨hdrA, hdrABytes⟩ : MPEGFrame).data.length ≠
      (⟨hdrA, hdrABytes⟩ : MPEGFrame).header.length := by decide

/-- C8 (amended): from any state satisfying the reachable-state
invariant, every frame returned by Framer.feed, every frame inside a
segment returned by Segmenter.feed, and every frame kept in the
accumulator has data length equal to its header frame length, and the
invariant is preserved; a segment returned by Segmenter.done consists of
such complete frames except that the pending incomplete frame of the
framer, when present, is appended as a strictly short trailing frame. -/
theorem C8_emitted_frames_complete (sg : Segmenter) (c : Bytes) (h : SegInv sg) :
    (∀ f ∈ (Framer.feed sg.framer c).2, FrameOK f) ∧
    (∀ f ∈ (Segmenter.feed sg c).2, FrameOK f) ∧
    SegInv (Segmenter.feed sg c).1 ∧
    (∀ f ∈ (Segmenter.done sg).2, FrameOK f ∨ f.data.length < f.header.length) := by
  obtain ⟨hfr, hbuf⟩ := h
  obtain ⟨hinv1, hout1⟩ := feed_ok (c := c) hfr
  have h2 := segLoop_ok (Framer.feed sg.framer c).2 sg.duration sg.buf sg.buf_duration []
    hbuf (by simp) hout1
  refine ⟨hout1, ?_, ⟨?_, ?_⟩, ?_⟩
  · exact h2.2
  · exact hinv1
  · exact h2.1
  · intro f hf
    cases hlf : sg.framer.last_frame with
    | none =>
      rw [show (Segmenter.done sg).2 = sg.buf from by simp [Segmenter.done, hlf]] at hf
      exact Or.inl (hbuf f hf)
    | some lf =>
      rw [show (Segmenter.done sg).2 = sg.buf ++ [lf] from by simp [Segmenter.done, hlf]] at hf
      rcases List.mem_append.mp hf with hf | hf
      · exact Or.inl (hbuf f hf)
      · rcases List.mem_singleton.mp hf with rfl
        refine Or.inr ?_
        have hp := hfr.2.1
        rw [hlf] at hp
        exact hp

theorem C8_emitted_frames_complete_witness :
    SegInv stPend ∧
    ∀ f ∈ (Segmenter.done stPend).2, FrameOK f ∨ f.data.length < f.header.length :=
  ⟨by decide, (C8_emitted_frames_complete stPend [] (by decide)).2.2.2⟩

/-- C9 counterexample: calling parse on a 3-byte input returns the
ordinary invalid result (None) through a normal return; it does not
raise, contradicting the claim that a non-4-byte input fails loudly. -/
theorem C9_counterexample :
    parse_call [0, 0, 0] = Except.ok none ∧
    ∀ e : Unit, parse_call [0, 0, 0] ≠ Except.error e :=
  ⟨rfl, fun _ h => nomatch h⟩

/-- C9 (amended): for every input that is not exactly 4 bytes long, the
struct unpack error inside parse is caught by the try/except of the
source and the call returns the ordinary invalid result (None) without
raising; the framer relies on this when probing candidate headers near
the end of its buffer. -/
theorem C9_short_input_returns_invalid (xs : Bytes) (h : xs.length ≠ 4) :
    parse_call xs = Except.ok none := by
  match xs with
  | [] => rfl
  | [a] => rfl
  | [a, b] => rfl
  | [a, b, c] => rfl
  | [a, b, c, d] => exact absurd rfl h
  | a :: b :: c :: d :: e :: rest => rfl

theorem C9_short_input_returns_invalid_witness :
    ([(0 : Byte), 0, 0] : Bytes).length ≠ 4 ∧
    parse_call [0, 0, 0] = Except.ok none :=
  ⟨by decide, C9_short_input_returns_invalid [0, 0, 0] (by decide)⟩

/-- C10: feeding an empty chunk leaves the framer unchanged — same
buffer, same pending frame, same internal queue — and returns the empty
frame sequence. The hypothesis that the leftover buffer is shorter than
4 bytes holds in every reachable state (it is part of the preserved
framer invariant). -/
theorem C10_empty_chunk_noop (s : Framer) (h : s.buf.length < 4) :
    Framer.feed s [] = (s, []) := by
  show feedAux (s.buf.length + ([] : Bytes).length + 1) s [] = (s, [])
  simp only [feedAux, flf_nil]
  rw [if_pos (by simpa using h)]
  simp

theorem C10_empty_chunk_noop_witness :
    Framer.init.buf.length < 4 ∧ Framer.feed Framer.init [] = (Framer.init, []) :=
  ⟨by decide, C10_empty_chunk_noop Framer.init (by decide)⟩

end Ricecast
